import Mathlib

/-!
Verification development for the armspeech incremental-computation core
(armspeech/bisque/distribute.py) and the corpus error helper
(armspeech/modelling/corpus.py).

Modelling conventions.

Hash primitives (codedep.getHash, persist.secHashObject, persist.secHashFile)
are external collaborators; the spec treats digest equality as implying value
equality (collision-free assumption).  We therefore model digests as a free
inductive datatype HVal: secHashObject wraps its argument in an injective
digest constructor, so hash equality coincides exactly with equality of the
hashed data, which is precisely the collision-free idealization.

Python objects are modelled as nodes of a finite graph, identified by natural
number ids (the id() of the object); mutable attribute state (_secHash memo
slots) is an explicit state function from ids to optional digests.  Recursive
stateful methods are embedded with a fuel parameter; lemmas show any
sufficiently large fuel gives the (unique) value of the recursion, mirroring
the terminating Python recursion.

The filesystem is a parameter: file contents are a function from location
strings to contents, and existence is a predicate on paths.
-/

/-- Values that can be fed to the hashing primitives: Python strings, bools,
code objects (represented by a numeric code identity), tuples, lists, and
previously computed digests.  The digest constructor represents the output of
a hash primitive; keeping it a free constructor makes the primitives injective,
which is the collision-free idealization used by the spec. -/
inductive HVal where
  | nat : Nat → HVal
  | str : String → HVal
  | bool : Bool → HVal
  | digest : HVal → HVal
  | pair : HVal → HVal → HVal
  | triple : HVal → HVal → HVal → HVal
  | lnil : HVal
  | lcons : HVal → HVal → HVal
  deriving DecidableEq, Repr

/-- Encoding of a Python list of hashable values as an HVal. -/
def HVal.ofList : List HVal → HVal
  | [] => HVal.lnil
  | v :: vs => HVal.lcons v (HVal.ofList vs)

/-- Model of persist.secHashObject: hashing a serializable value yields a
digest; injective by construction (collision-free idealization). -/
def secHashObject (v : HVal) : HVal := HVal.digest v

/-- Model of persist.secHashFile: hashing the byte contents of a file.  It is
given the contents (a string) read from the filesystem at call time. -/
def secHashFile (contents : String) : HVal := HVal.digest (HVal.str contents)

/-- Node kinds of the distribute.py class hierarchy.  Parent references are
node ids (natural numbers) into a Graph.  ThunkArtifact stores the code hash
of its thunk and the shouldCache flag; FixedDirArtifact and FixedFileArtifact
store their location; JobArtifact stores its parent job; Job stores its
ordered list of input artifacts. -/
inductive NodeKind where
  | thunkArt : Nat → Bool → NodeKind
  | fixedDirArt : String → NodeKind
  | fixedFileArt : String → NodeKind
  | jobArt : Nat → NodeKind
  | job : List Nat → NodeKind
  deriving DecidableEq, Repr

/-- Parents of a node, as in the parents() methods: artifacts other than
JobArtifact have no parents, a JobArtifact's parent is its producing job, and
a Job's parents are its inputs. -/
def NodeKind.parentsOf : NodeKind → List Nat
  | NodeKind.thunkArt _ _ => []
  | NodeKind.fixedDirArt _ => []
  | NodeKind.fixedFileArt _ => []
  | NodeKind.jobArt p => [p]
  | NodeKind.job ins => ins

/-- An object graph: n objects with ids below n, each with the code hash of
its class (codedep.getHash(self.__class__)) and its kind-specific data. -/
structure Graph where
  n : Nat
  classHash : Nat → Nat
  kind : Nat → NodeKind

/-- Parents relation of the graph, node ids to node ids. -/
def Graph.parentsOf (g : Graph) (i : Nat) : List Nat :=
  (g.kind i).parentsOf

/-- Well-formedness: ids are below n and each node's parents have strictly
smaller ids (objects are built bottom-up, so a parent predates its child). -/
def Graph.WF (g : Graph) : Prop :=
  ∀ i < g.n, ∀ j ∈ g.parentsOf i, j < i

/-- Memo state: the _secHash attribute of each object, absent until the first
secHash() call stores it. -/
def St : Type := Nat → Option HVal

/-- Fresh state: no object has computed its hash yet. -/
def St.empty : St := fun _ => none

/-- Updating one object's memo slot. -/
def St.set (st : St) (i : Nat) (h : HVal) : St :=
  fun j => if j = i then some h else st j

/-- Filesystem contents: what secHashFile would read at each location. -/
def Fs : Type := String → String

mutual

/-- DagNode.secHash: return the memoized _secHash, computing and storing it on
first use.  Fuel bounds the recursion depth of the embedded Python recursion. -/
def secHashF (g : Graph) (fs : Fs) : Nat → Nat → St → HVal × St
  | 0, _, st => (HVal.lnil, st)
  | fuel + 1, i, st =>
    match st i with
    | some h => (h, st)
    | none =>
      let r := computeSecHashF g fs fuel i st
      (r.1, St.set r.2 i r.1)
termination_by fuel _ _ => (fuel, 0)

/-- computeSecHash of each class: ThunkArtifact hashes (class code, thunk
code, shouldCache); FixedDirArtifact hashes (class code, location);
FixedFileArtifact hashes (class code, hash of current file contents);
JobArtifact hashes (class code, parent job secHash); Job hashes (class code,
ordered input secHashes). -/
def computeSecHashF (g : Graph) (fs : Fs) : Nat → Nat → St → HVal × St
  | 0, _, st => (HVal.lnil, st)
  | fuel + 1, i, st =>
    match g.kind i with
    | NodeKind.thunkArt t c =>
      (secHashObject (HVal.triple (HVal.nat (g.classHash i)) (HVal.nat t) (HVal.bool c)), st)
    | NodeKind.fixedDirArt l =>
      (secHashObject (HVal.pair (HVal.nat (g.classHash i)) (HVal.str l)), st)
    | NodeKind.fixedFileArt l =>
      (secHashObject (HVal.pair (HVal.nat (g.classHash i)) (secHashFile (fs l))), st)
    | NodeKind.jobArt p =>
      let r := secHashF g fs fuel p st
      (secHashObject (HVal.pair (HVal.nat (g.classHash i)) r.1), r.2)
    | NodeKind.job ins =>
      let r := secHashListF g fs fuel ins st
      (secHashObject (HVal.pair (HVal.nat (g.classHash i)) (HVal.ofList r.1)), r.2)
termination_by fuel _ _ => (fuel, 1)

/-- Sequential left-to-right evaluation of art.secHash() over a job's input
list, threading the memo state. -/
def secHashListF (g : Graph) (fs : Fs) : Nat → List Nat → St → List HVal × St
  | _, [], st => ([], st)
  | fuel, i :: is, st =>
    let r := secHashF g fs fuel i st
    let rs := secHashListF g fs fuel is r.2
    (r.1 :: rs.1, rs.2)
termination_by fuel is _ => (fuel, 2 + is.length)

end

/-- Mathematical value of the recursion: the hash each node gets on a fresh
graph, defined by fueled recursion on the (well-founded) parent order. -/
def trueHashF (g : Graph) (fs : Fs) : Nat → Nat → HVal
  | 0, _ => HVal.lnil
  | fuel + 1, i =>
    match g.kind i with
    | NodeKind.thunkArt t c =>
      secHashObject (HVal.triple (HVal.nat (g.classHash i)) (HVal.nat t) (HVal.bool c))
    | NodeKind.fixedDirArt l =>
      secHashObject (HVal.pair (HVal.nat (g.classHash i)) (HVal.str l))
    | NodeKind.fixedFileArt l =>
      secHashObject (HVal.pair (HVal.nat (g.classHash i)) (secHashFile (fs l)))
    | NodeKind.jobArt p =>
      secHashObject (HVal.pair (HVal.nat (g.classHash i)) (trueHashF g fs fuel p))
    | NodeKind.job ins =>
      secHashObject (HVal.pair (HVal.nat (g.classHash i))
        (HVal.ofList (ins.map (trueHashF g fs fuel))))

/-- Canonical hash of node i: enough fuel for a well-formed graph. -/
def trueHash (g : Graph) (fs : Fs) (i : Nat) : HVal :=
  trueHashF g fs (i + 1) i

/-- Artifact.checkSecHash and Job.checkSecHash: recompute the hash and raise a
RuntimeError when the memoized hash disagrees.  Both the secHash() call and
the computeSecHash() call may update the memo state, which is threaded. -/
def checkSecHashF (g : Graph) (fs : Fs) (fuel : Nat) (i : Nat) (st : St) :
    Except String St :=
  let r := secHashF g fs fuel i st
  let r2 := computeSecHashF g fs fuel i r.2
  if r.1 = r2.1 then Except.ok r2.2
  else
    match g.kind i with
    | NodeKind.job _ => Except.error "secHash of job has changed"
    | _ => Except.error "secHash of artifact has changed"

/-- Generic worklist of the ancestors algorithm, shared by ancestors and
ancestorArtifacts (the spec calls them two instances of the same generic
algorithm, parameterized by the parents relation).  The Python agenda pops
from the right and pushes reversed parent lists; we keep the agenda reversed,
so popping is taking the head and pushing is prepending the parent list.
Fuel bounds the number of loop iterations; None means fuel ran out. -/
def wlAux {α : Type} [DecidableEq α] (parents : α → List α) :
    Nat → List α → Finset α → List α → Option (List α)
  | _, [], _, ret => some ret
  | 0, _ :: _, _, _ => none
  | fuel + 1, node :: rest, lookup, ret =>
    if node ∈ lookup then wlAux parents fuel rest lookup ret
    else wlAux parents fuel (parents node ++ rest) (insert node lookup) (ret ++ [node])

/-- Iteration bound sufficient for a worklist whose nodes live in the finite
parent-closed universe U: every node pushes its parents at most once. -/
def wlFuel {α : Type} (parents : α → List α) (U : Finset α) (init : List α) : Nat :=
  init.length + Finset.sum U (fun x => (parents x).length)

/-- The node-level ancestors function over a graph with ids below n: the
universe of ids is Finset.range n. -/
def ancestors (g : Graph) (init : List Nat) : List Nat :=
  (wlAux g.parentsOf
    (wlFuel g.parentsOf (Finset.range g.n) init) init.reverse ∅ []).getD []

/-- DagNode.checkAllSecHash: check every ancestor of the node, threading memo
state, raising at the first mismatch. -/
def checkNodesF (g : Graph) (fs : Fs) (fuel : Nat) :
    List Nat → St → Except String St
  | [], st => Except.ok st
  | i :: is, st =>
    match checkSecHashF g fs fuel i st with
    | Except.ok st2 => checkNodesF g fs fuel is st2
    | Except.error e => Except.error e

/-- checkAllSecHash of node s: iterate checkSecHash over ancestors([s]). -/
def checkAllSecHashF (g : Graph) (fs : Fs) (fuel : Nat) (s : Nat) (st : St) :
    Except String St :=
  checkNodesF g fs fuel (ancestors g [s]) st

/-- Reachability along the parents relation (reflexive-transitive). -/
def Graph.Reach (g : Graph) (a b : Nat) : Prop :=
  Relation.ReflTransGen (fun x y => y ∈ g.parentsOf x) a b

/-- Paths in the model: either a plain location string, or the join of the
build repository cache directory with a digest (os.path.join(cacheDir,
secHash)).  The join of a directory with a hex digest name is injective, so a
free pairing constructor models it. -/
inductive FPath where
  | plain : String → FPath
  | join : String → HVal → FPath
  deriving DecidableEq, Repr

/-- Build repository collaborator: owns the cache root directory. -/
structure BuildRepo where
  cacheDir : String

/-- Filesystem existence predicate (os.path.exists). -/
def FsExists : Type := FPath → Bool

/-- The loc methods: FixedDirArtifact and FixedFileArtifact return their
fixed location; JobArtifact joins the cache directory with its own secHash
(which may be computed and memoized by the call).  ThunkArtifact and Job have
no loc. -/
def locF (g : Graph) (fs : Fs) (repo : BuildRepo) (fuel : Nat) (i : Nat)
    (st : St) : Option FPath × St :=
  match g.kind i with
  | NodeKind.fixedDirArt l => (some (FPath.plain l), st)
  | NodeKind.fixedFileArt l => (some (FPath.plain l), st)
  | NodeKind.jobArt _ =>
    let r := secHashF g fs fuel i st
    (some (FPath.join repo.cacheDir r.1), r.2)
  | _ => (none, st)

/-- The isDone methods: ThunkArtifact is always done; the others check
filesystem existence at their loc. -/
def isDoneF (g : Graph) (fs : Fs) (ex : FsExists) (repo : BuildRepo)
    (fuel : Nat) (i : Nat) (st : St) : Bool × St :=
  match g.kind i with
  | NodeKind.thunkArt _ _ => (true, st)
  | NodeKind.fixedDirArt l => (ex (FPath.plain l), st)
  | NodeKind.fixedFileArt l => (ex (FPath.plain l), st)
  | NodeKind.jobArt _ =>
    let r := secHashF g fs fuel i st
    (ex (FPath.join repo.cacheDir r.1), r.2)
  | _ => (false, st)

/-- Values an artifact can produce when loaded (thunk results live in the
separate thunk-artifact model below). -/
inductive AValue where
  | path : String → AValue
  | pickled : FPath → AValue
  deriving DecidableEq, Repr

/-- The loadValue methods for location-bearing artifacts.  FixedDirArtifact
returns its location unconditionally (the docstring says the artifact value is
the location); JobArtifact deserializes the pickle at its loc, a filesystem
failure when nothing exists there; FixedFileArtifact has no loadValue (it must
be supplied by a further subclass); Job has none either. -/
def loadValueF (g : Graph) (fs : Fs) (ex : FsExists) (repo : BuildRepo)
    (fuel : Nat) (i : Nat) (st : St) : Except String AValue × St :=
  match g.kind i with
  | NodeKind.fixedDirArt l => (Except.ok (AValue.path l), st)
  | NodeKind.jobArt _ =>
    let r := secHashF g fs fuel i st
    if ex (FPath.join repo.cacheDir r.1) then
      (Except.ok (AValue.pickled (FPath.join repo.cacheDir r.1)), r.2)
    else (Except.error "loadPickle: no such file", r.2)
  | _ => (Except.error "loadValue not implemented", st)

/-!
Process-local model of ThunkArtifact.loadValue (lines 67-73).  The thunk is an
oracle from invocation count to produced value: distinct invocations may
produce distinct (not identical) objects, so returning the value of invocation
0 every time models returning the identical cached object.  The state records
the memoized _value slot and the number of thunk invocations so far. -/
structure ThunkSt (V : Type) where
  value : Option V
  calls : Nat
  deriving Repr

/-- ThunkArtifact.loadValue: if shouldCache, memoize the thunk result in the
_value slot on first call and return the slot thereafter; otherwise invoke the
thunk fresh on every call. -/
def thunkLoadValue {V : Type} (thunk : Nat → V) (shouldCache : Bool)
    (s : ThunkSt V) : V × ThunkSt V :=
  if shouldCache then
    match s.value with
    | some v => (v, s)
    | none =>
      let v := thunk s.calls
      (v, ⟨some v, s.calls + 1⟩)
  else (thunk s.calls, ⟨s.value, s.calls + 1⟩)

/-- Iterated loadValue calls, collecting the returned values. -/
def thunkRun {V : Type} (thunk : Nat → V) (shouldCache : Bool) :
    Nat → ThunkSt V → List V × ThunkSt V
  | 0, s => ([], s)
  | k + 1, s =>
    let r := thunkLoadValue thunk shouldCache s
    let rs := thunkRun thunk shouldCache k r.2
    (r.1 :: rs.1, rs.2)

/-- Instrumented model of DagNode.secHash for a single node (lines 19-22):
the computeSecHash oracle is a function of the invocation count, so a changed
result of computeSecHash (mutated inputs) between calls is observable.  The
state is the optional _secHash slot plus the invocation counter. -/
def secHashOp (compute : Nat → HVal) (s : Option HVal × Nat) :
    HVal × (Option HVal × Nat) :=
  match s.1 with
  | some h => (h, s)
  | none =>
    let h := compute s.2
    (h, (some h, s.2 + 1))

/-- Iterated secHash calls on one node, collecting returned hashes. -/
def secHashRun (compute : Nat → HVal) :
    Nat → Option HVal × Nat → List HVal × (Option HVal × Nat)
  | 0, s => ([], s)
  | k + 1, s =>
    let r := secHashOp compute s
    let rs := secHashRun compute k r.2
    (r.1 :: rs.1, rs.2)

/-!
Model of armspeech/modelling/corpus.py, Corpus.outError.  The distribution,
frame, vector and error types are collaborator parameters; numeric error
values are modelled as integers (the claim is about control flow and the
summation structure, not float arithmetic).  SynthMethod is the enum from the
dist module (only its Meanish tag is used here). -/
inductive SynthMethod where
  | Sample
  | Meanish
  deriving DecidableEq, Repr

/-- Distribution collaborator: synth(input, method, actualOutput). -/
structure SynthDist (In Out : Type) where
  synth : In → SynthMethod → Out → Out

/-- Corpus: maps utterance ids to (input, output) pairs (the data method). -/
structure Corpus (UttId In Out : Type) where
  data : UttId → In × Out

/-- The computeValue closure inside Corpus.outError: synthesize with the
Meanish method, turn both outputs into frame sequences, raise when lengths
differ, and otherwise sum the per-frame vecError over the zipped sequences. -/
def outErrorValue {UttId In Out Frame Vec : Type}
    (c : Corpus UttId In Out) (dist : SynthDist In Out)
    (vecError : Vec → Vec → Int) (frameToVec : Frame → Vec)
    (outputToFrameSeq : Out → List Frame) (uttId : UttId) :
    Except String Int :=
  let input := (c.data uttId).1
  let actualOutput := (c.data uttId).2
  let synthOutput := dist.synth input SynthMethod.Meanish actualOutput
  let synthFrameSeq := outputToFrameSeq synthOutput
  let actualFrameSeq := outputToFrameSeq actualOutput
  if actualFrameSeq.length ≠ synthFrameSeq.length then
    Except.error "actual and synthesized sequences must have the same length to compute error"
  else
    Except.ok (((synthFrameSeq.zip actualFrameSeq).map
      (fun p => vecError (frameToVec p.1) (frameToVec p.2))).sum)

/-- Corpus.sum as used by outError: evaluate computeValue on each utterance
left to right and sum the results; an exception propagates from the first
offending utterance. -/
def corpusSumE {UttId : Type} (f : UttId → Except String Int) :
    List UttId → Except String Int
  | [] => Except.ok 0
  | u :: us =>
    match f u with
    | Except.error e => Except.error e
    | Except.ok v =>
      match corpusSumE f us with
      | Except.error e => Except.error e
      | Except.ok w => Except.ok (v + w)

/-- Corpus.outError. -/
def outError {UttId In Out Frame Vec : Type}
    (c : Corpus UttId In Out) (dist : SynthDist In Out) (uttIds : List UttId)
    (vecError : Vec → Vec → Int) (frameToVec : Frame → Vec)
    (outputToFrameSeq : Out → List Frame) : Except String Int :=
  corpusSumE (outErrorValue c dist vecError frameToVec outputToFrameSeq) uttIds

/-- State extension: every memo slot already set keeps its value. -/
def St.Le (st st' : St) : Prop := ∀ j h, st j = some h → st' j = some h

/-- What computeSecHash returns in a state where every memo slot is set to v:
it reads the cached hashes of its parents and recombines them. -/
def computeStored (g : Graph) (fs : Fs) (v : Nat → HVal) (i : Nat) : HVal :=
  match g.kind i with
  | NodeKind.thunkArt t c =>
    secHashObject (HVal.triple (HVal.nat (g.classHash i)) (HVal.nat t) (HVal.bool c))
  | NodeKind.fixedDirArt l =>
    secHashObject (HVal.pair (HVal.nat (g.classHash i)) (HVal.str l))
  | NodeKind.fixedFileArt l =>
    secHashObject (HVal.pair (HVal.nat (g.classHash i)) (secHashFile (fs l)))
  | NodeKind.jobArt p =>
    secHashObject (HVal.pair (HVal.nat (g.classHash i)) (v p))
  | NodeKind.job ins =>
    secHashObject (HVal.pair (HVal.nat (g.classHash i)) (HVal.ofList (ins.map v)))

/-- Coherence: every memo slot that is set holds the canonical hash. -/
def Coh (g : Graph) (fs : Fs) (st : St) : Prop :=
  ∀ j, j < g.n → ∀ h, st j = some h → h = trueHash g fs j

/-- JobArtifact.parentArtifacts returns parentJob.inputs; the other artifact
classes return the empty list.  (Job has no parentArtifacts method; the
traversal is only ever started from artifacts.) -/
def Graph.parentArtifactsOf (g : Graph) (i : Nat) : List Nat :=
  match g.kind i with
  | NodeKind.jobArt p =>
    match g.kind p with
    | NodeKind.job ins => ins
    | _ => []
  | _ => []

/-- The artifact-level ancestors function (ancestorArtifacts). -/
def ancestorArtifacts (g : Graph) (init : List Nat) : List Nat :=
  (wlAux g.parentArtifactsOf
    (wlFuel g.parentArtifactsOf (Finset.range g.n) init) init.reverse ∅ []).getD []

/-- Closure: node ids stay below n along the parents relation.  This permits
cycles; well-formed (bottom-up built) graphs are closed a fortiori. -/
def Graph.Closed (g : Graph) : Prop :=
  ∀ i < g.n, ∀ j ∈ g.parentsOf i, j < g.n

/-- Mismatch predicate of outError: the actual and synthesized frame
sequences of an utterance have different lengths. -/
def FrameMismatch {UttId In Out Frame : Type}
    (c : Corpus UttId In Out) (dist : SynthDist In Out)
    (outputToFrameSeq : Out → List Frame) (u : UttId) : Prop :=
  (outputToFrameSeq (c.data u).2).length ≠
    (outputToFrameSeq
      (dist.synth (c.data u).1 SynthMethod.Meanish (c.data u).2)).length

/-- Per-utterance error: sum of vecError over the zipped synthesized and
actual frame sequences. -/
def perUttError {UttId In Out Frame Vec : Type}
    (c : Corpus UttId In Out) (dist : SynthDist In Out)
    (vecError : Vec → Vec → Int) (frameToVec : Frame → Vec)
    (outputToFrameSeq : Out → List Frame) (u : UttId) : Int :=
  (((outputToFrameSeq
      (dist.synth (c.data u).1 SynthMethod.Meanish (c.data u).2)).zip
    (outputToFrameSeq (c.data u).2)).map
    (fun p => vecError (frameToVec p.1) (frameToVec p.2))).sum

instance {UttId In Out Frame : Type} (c : Corpus UttId In Out)
    (dist : SynthDist In Out) (outputToFrameSeq : Out → List Frame)
    (u : UttId) : Decidable (FrameMismatch c dist outputToFrameSeq u) := by
  unfold FrameMismatch
  exact inferInstance


/-! Concrete graphs and collaborators used to instantiate the theorems. -/

/-- Diamond graph: job 3 takes inputs 1 and 2, both jobs over the shared
leaf artifact 0. -/
def gDiamond : Graph :=
  ⟨4, fun _ => 0, fun i =>
    if i = 3 then NodeKind.job [1, 2]
    else if i = 1 then NodeKind.job [0]
    else if i = 2 then NodeKind.job [0]
    else NodeKind.fixedDirArt "a"⟩

/-- Two-node graph whose parents relation is a cycle. -/
def gCycle : Graph :=
  ⟨2, fun _ => 0, fun i =>
    if i = 0 then NodeKind.jobArt 1 else NodeKind.jobArt 0⟩

/-- Chain: leaf artifact 0, job 1 over it, output artifact 2 of job 1. -/
def gChain : Graph :=
  ⟨3, fun i => i, fun i =>
    if i = 2 then NodeKind.jobArt 1
    else if i = 1 then NodeKind.job [0]
    else NodeKind.fixedDirArt "a"⟩

/-- A job over one fixed-location input. -/
def gJob : Graph :=
  ⟨2, fun _ => 5, fun i =>
    if i = 1 then NodeKind.job [0] else NodeKind.fixedDirArt "x"⟩

/-- A single fixed-directory artifact at a nonexistent location. -/
def gDir : Graph := ⟨1, fun _ => 0, fun _ => NodeKind.fixedDirArt "nowhere"⟩

/-- A single fixed-file artifact. -/
def gFile : Graph := ⟨1, fun _ => 0, fun _ => NodeKind.fixedFileArt "f"⟩

/-- Filesystem with empty contents everywhere. -/
def fsEmpty : Fs := fun _ => ""

/-- Existence predicate of an empty filesystem. -/
def exNone : FsExists := fun _ => false

/-- A build repository. -/
def repo0 : BuildRepo := ⟨"cache"⟩

/-! Basic lemmas. -/

/-- The list encoding into HVal is injective. -/
lemma HVal.ofList_inj : ∀ {xs ys : List HVal},
    HVal.ofList xs = HVal.ofList ys → xs = ys
  | [], [], _ => rfl
  | [], _ :: _, h => by simp [HVal.ofList] at h
  | _ :: _, [], h => by simp [HVal.ofList] at h
  | x :: xs, y :: ys, h => by
    simp only [HVal.ofList, HVal.lcons.injEq] at h
    exact congrArg₂ List.cons h.1 (HVal.ofList_inj h.2)

/-- In a well-formed graph, reachability stays below n. -/
lemma Graph.Reach.lt_n {g : Graph} (hwf : g.WF) {s k : Nat} (hs : s < g.n)
    (h : g.Reach s k) : k < g.n := by
  induction h with
  | refl => exact hs
  | tail _ hz ih => exact lt_trans (hwf _ ih _ hz) ih

/-- The fueled hash recursion is stable: any fuel above the node id gives the
canonical hash, so trueHash is the value of the terminating recursion. -/
lemma trueHashF_stable (g : Graph) (fs : Fs) (hwf : g.WF) :
    ∀ i, i < g.n → ∀ fuel, i < fuel → trueHashF g fs fuel i = trueHash g fs i := by
  intro i
  induction i using Nat.strong_induction_on with
  | _ i ih =>
    intro hin fuel hfuel
    obtain ⟨f, rfl⟩ : ∃ f, fuel = f + 1 := ⟨fuel - 1, by omega⟩
    unfold trueHash
    have hpar := hwf i hin
    cases hk : g.kind i with
    | thunkArt t c => simp [trueHashF, hk]
    | fixedDirArt l => simp [trueHashF, hk]
    | fixedFileArt l => simp [trueHashF, hk]
    | jobArt p =>
      have hp : p < i := hpar p (by simp [Graph.parentsOf, hk, NodeKind.parentsOf])
      have hpn : p < g.n := lt_trans hp hin
      simp only [trueHashF, hk]
      rw [ih p hp hpn f (by omega), ih p hp hpn i hp]
    | job ins =>
      have hmem : ∀ j ∈ ins, j < i := by
        intro j hj
        exact hpar j (by simp [Graph.parentsOf, hk, NodeKind.parentsOf, hj])
      simp only [trueHashF, hk]
      have h1 : ins.map (trueHashF g fs f) = ins.map (trueHash g fs) := by
        refine List.map_congr_left ?_
        intro j hj
        have hji := hmem j hj
        exact ih j hji (lt_trans hji hin) f (by omega)
      have h2 : ins.map (trueHashF g fs i) = ins.map (trueHash g fs) := by
        refine List.map_congr_left ?_
        intro j hj
        exact ih j (hmem j hj) (lt_trans (hmem j hj) hin) i (hmem j hj)
      rw [h1, h2]

lemma St.Le.refl (st : St) : St.Le st st := fun _ _ h => h

lemma St.Le.trans {s1 s2 s3 : St} (h1 : St.Le s1 s2) (h2 : St.Le s2 s3) :
    St.Le s1 s3 := fun j h hj => h2 j h (h1 j h hj)

lemma St.Le.set_of_none {st st' : St} {i : Nat} {v : HVal}
    (hle : St.Le st st') (hi : st i = none) : St.Le st (St.set st' i v) := by
  intro j h hj
  by_cases hji : j = i
  · rw [hji] at hj; rw [hj] at hi; exact absurd hi (by simp)
  · simpa [St.set, hji] using hle j h hj

/-- The hashing operations only fill empty memo slots: they never change a
slot that is already set. -/
lemma hashOpsLe (g : Graph) (fs : Fs) : ∀ fuel : Nat,
    (∀ i st, St.Le st (secHashF g fs fuel i st).2) ∧
    (∀ ins st, St.Le st (secHashListF g fs fuel ins st).2) ∧
    (∀ i st, St.Le st (computeSecHashF g fs fuel i st).2) := by
  intro fuel
  induction fuel with
  | zero =>
    have hs : ∀ i st, St.Le st (secHashF g fs 0 i st).2 := by
      intro i st; simp only [secHashF]; exact St.Le.refl st
    refine ⟨hs, ?_, ?_⟩
    · intro ins
      induction ins with
      | nil => intro st; simp only [secHashListF]; exact St.Le.refl st
      | cons i is ih =>
        intro st
        simp only [secHashListF]
        exact St.Le.trans (hs i st) (ih _)
    · intro i st; simp only [computeSecHashF]; exact St.Le.refl st
  | succ f ihf =>
    have hs : ∀ i st, St.Le st (secHashF g fs (f + 1) i st).2 := by
      intro i st
      simp only [secHashF]
      cases hst : st i with
      | some h => exact St.Le.refl st
      | none => exact St.Le.set_of_none (ihf.2.2 i st) hst
    have hl : ∀ ins st, St.Le st (secHashListF g fs (f + 1) ins st).2 := by
      intro ins
      induction ins with
      | nil => intro st; simp only [secHashListF]; exact St.Le.refl st
      | cons i is ih =>
        intro st
        simp only [secHashListF]
        exact St.Le.trans (hs i st) (ih _)
    refine ⟨hs, hl, ?_⟩
    intro i st
    simp only [computeSecHashF]
    cases hk : g.kind i with
    | thunkArt t c => exact St.Le.refl st
    | fixedDirArt l => exact St.Le.refl st
    | fixedFileArt l => exact St.Le.refl st
    | jobArt p => exact ihf.1 p st
    | job ins => exact ihf.2.1 ins st

/-- Fixpoint property of the canonical hash: recombining the canonical hashes
of the parents gives the canonical hash of the node. -/
lemma trueHash_eq_computeStored (g : Graph) (fs : Fs) (hwf : g.WF) {i : Nat}
    (hin : i < g.n) :
    trueHash g fs i = computeStored g fs (trueHash g fs) i := by
  have hpar := hwf i hin
  rw [show trueHash g fs i = trueHashF g fs (i + 1) i from rfl]
  cases hk : g.kind i with
  | thunkArt t c => simp only [trueHashF, computeStored, hk]
  | fixedDirArt l => simp only [trueHashF, computeStored, hk]
  | fixedFileArt l => simp only [trueHashF, computeStored, hk]
  | jobArt p =>
    have hp : p < i := hpar p (by simp [Graph.parentsOf, hk, NodeKind.parentsOf])
    simp only [trueHashF, computeStored, hk]
    rw [trueHashF_stable g fs hwf p (lt_trans hp hin) i hp]
  | job ins =>
    have hmem : ∀ j ∈ ins, j < i := by
      intro j hj
      exact hpar j (by simp [Graph.parentsOf, hk, NodeKind.parentsOf, hj])
    simp only [trueHashF, computeStored, hk]
    congr 3
    refine List.map_congr_left ?_
    intro j hj
    exact trueHashF_stable g fs hwf j (lt_trans (hmem j hj) hin) i (hmem j hj)

/-- secHash returns the memoized value, with no state change, regardless of
the graph or the filesystem. -/
lemma secHashF_cached (g : Graph) (fs : Fs) {fuel i : Nat} {st : St} {h : HVal}
    (hfuel : 1 ≤ fuel) (hst : st i = some h) :
    secHashF g fs fuel i st = (h, st) := by
  obtain ⟨f, rfl⟩ : ∃ f, fuel = f + 1 := ⟨fuel - 1, by omega⟩
  simp [secHashF, hst]

/-- Input-list hashing in a fully memoized state reads the caches in order. -/
lemma secHashListF_stored (g : Graph) (fs : Fs) {fuel : Nat} {st : St}
    {v : Nat → HVal} (hst : ∀ j, st j = some (v j)) (hfuel : 1 ≤ fuel) :
    ∀ ins, secHashListF g fs fuel ins st = (ins.map v, st) := by
  intro ins
  induction ins with
  | nil => simp [secHashListF]
  | cons i is ih =>
    obtain ⟨f, rfl⟩ : ∃ f, fuel = f + 1 := ⟨fuel - 1, by omega⟩
    simp only [secHashListF]
    rw [secHashF_cached g fs (by omega) (hst i)]
    simp [ih]

/-- computeSecHash in a fully memoized state: pure recombination of caches. -/
lemma computeSecHashF_stored (g : Graph) (fs : Fs) {fuel i : Nat} {st : St}
    {v : Nat → HVal} (hst : ∀ j, st j = some (v j)) (hfuel : 2 ≤ fuel) :
    computeSecHashF g fs fuel i st = (computeStored g fs v i, st) := by
  obtain ⟨f, rfl⟩ : ∃ f, fuel = f + 1 := ⟨fuel - 1, by omega⟩
  cases hk : g.kind i with
  | thunkArt t c => simp [computeSecHashF, computeStored, hk]
  | fixedDirArt l => simp [computeSecHashF, computeStored, hk]
  | fixedFileArt l => simp [computeSecHashF, computeStored, hk]
  | jobArt p =>
    simp only [computeSecHashF, computeStored, hk]
    rw [secHashF_cached g fs (by omega) (hst p)]
  | job ins =>
    simp only [computeSecHashF, computeStored, hk]
    rw [secHashListF_stored g fs hst (by omega) ins]

lemma Coh.empty (g : Graph) (fs : Fs) : Coh g fs St.empty := by
  intro j _ h hj
  simp [St.empty] at hj

/-- With enough fuel and a coherent state, secHash, computeSecHash and
input-list hashing all return canonical hashes and preserve coherence. -/
lemma hashCoh (g : Graph) (fs : Fs) (hwf : g.WF) : ∀ fuel : Nat,
    (∀ i st, Coh g fs st → i < g.n → 2 * i + 2 ≤ fuel →
      (secHashF g fs fuel i st).1 = trueHash g fs i ∧
      Coh g fs (secHashF g fs fuel i st).2) ∧
    (∀ ins st, Coh g fs st → (∀ j ∈ ins, j < g.n ∧ 2 * j + 2 ≤ fuel) →
      (secHashListF g fs fuel ins st).1 = ins.map (trueHash g fs) ∧
      Coh g fs (secHashListF g fs fuel ins st).2) ∧
    (∀ i st, Coh g fs st → i < g.n → 2 * i + 1 ≤ fuel →
      (computeSecHashF g fs fuel i st).1 = trueHash g fs i ∧
      Coh g fs (computeSecHashF g fs fuel i st).2) := by
  intro fuel
  induction fuel with
  | zero =>
    refine ⟨fun i st _ _ hb => absurd hb (by omega), ?_,
      fun i st _ _ hb => absurd hb (by omega)⟩
    intro ins st hcoh hb
    cases ins with
    | nil => simpa [secHashListF] using hcoh
    | cons i is => exact absurd (hb i (by simp)).2 (by omega)
  | succ f ihf =>
    have hs : ∀ i st, Coh g fs st → i < g.n → 2 * i + 2 ≤ f + 1 →
        (secHashF g fs (f + 1) i st).1 = trueHash g fs i ∧
        Coh g fs (secHashF g fs (f + 1) i st).2 := by
      intro i st hcoh hin hb
      simp only [secHashF]
      cases hst : st i with
      | some h => exact ⟨hcoh i hin h hst, by simpa [hst] using hcoh⟩
      | none =>
        have hc := ihf.2.2 i st hcoh hin (by omega)
        refine ⟨hc.1, ?_⟩
        intro j hj h hjv
        by_cases hji : j = i
        · subst hji
          simp only [St.set, if_pos rfl] at hjv
          rw [← Option.some_inj.mp hjv, hc.1]
        · simp only [St.set, if_neg hji] at hjv
          exact hc.2 j hj h hjv
    have hl : ∀ ins st, Coh g fs st → (∀ j ∈ ins, j < g.n ∧ 2 * j + 2 ≤ f + 1) →
        (secHashListF g fs (f + 1) ins st).1 = ins.map (trueHash g fs) ∧
        Coh g fs (secHashListF g fs (f + 1) ins st).2 := by
      intro ins
      induction ins with
      | nil => intro st hcoh _; simpa [secHashListF] using hcoh
      | cons i is ih =>
        intro st hcoh hb
        simp only [secHashListF]
        have h1 := hs i st hcoh (hb i (by simp)).1 (hb i (by simp)).2
        have h2 := ih (secHashF g fs (f + 1) i st).2 h1.2
          (fun j hj => hb j (by simp [hj]))
        simp [h1.1, h2.1, h2.2]
    refine ⟨hs, hl, ?_⟩
    intro i st hcoh hin hb
    have hpar := hwf i hin
    rw [trueHash_eq_computeStored g fs hwf hin]
    cases hk : g.kind i with
    | thunkArt t c =>
      constructor
      · simp [computeSecHashF, hk, computeStored]
      · simpa [computeSecHashF, hk] using hcoh
    | fixedDirArt l =>
      constructor
      · simp [computeSecHashF, hk, computeStored]
      · simpa [computeSecHashF, hk] using hcoh
    | fixedFileArt l =>
      constructor
      · simp [computeSecHashF, hk, computeStored]
      · simpa [computeSecHashF, hk] using hcoh
    | jobArt p =>
      have hp : p < i := hpar p (by simp [Graph.parentsOf, hk, NodeKind.parentsOf])
      have hpn : p < g.n := lt_trans hp hin
      have h1 := ihf.1 p st hcoh hpn (by omega)
      constructor
      · simp only [computeSecHashF, hk, computeStored, h1.1]
      · simpa [computeSecHashF, hk] using h1.2
    | job ins =>
      have hmem : ∀ j ∈ ins, j < i := by
        intro j hj
        exact hpar j (by simp [Graph.parentsOf, hk, NodeKind.parentsOf, hj])
      have h1 := ihf.2.1 ins st hcoh (by
        intro j hj
        have := hmem j hj
        exact ⟨lt_trans this hin, by omega⟩)
      constructor
      · simp only [computeSecHashF, hk, computeStored, h1.1]
      · simpa [computeSecHashF, hk] using h1.2

/-- On a coherent state, checkSecHash succeeds and the state stays coherent. -/
lemma checkSecHashF_coh (g : Graph) (fs : Fs) (hwf : g.WF) (fuel : Nat)
    {i : Nat} {st : St} (hcoh : Coh g fs st) (hin : i < g.n)
    (hb : 2 * i + 2 ≤ fuel) :
    ∃ st', checkSecHashF g fs fuel i st = Except.ok st' ∧ Coh g fs st' := by
  have h1 := (hashCoh g fs hwf fuel).1 i st hcoh hin hb
  have h2 := (hashCoh g fs hwf fuel).2.2 i (secHashF g fs fuel i st).2 h1.2 hin
    (by omega)
  refine ⟨(computeSecHashF g fs fuel i (secHashF g fs fuel i st).2).2, ?_, h2.2⟩
  unfold checkSecHashF
  simp [h1.1, h2.1]

/-- On a coherent state, checking a list of valid nodes succeeds. -/
lemma checkNodesF_coh (g : Graph) (fs : Fs) (hwf : g.WF) {fuel : Nat}
    (hb : 2 * g.n ≤ fuel) :
    ∀ nodes st, (∀ i ∈ nodes, i < g.n) → Coh g fs st →
    ∃ st', checkNodesF g fs fuel nodes st = Except.ok st' ∧ Coh g fs st' := by
  intro nodes
  induction nodes with
  | nil => intro st _ hcoh; exact ⟨st, rfl, hcoh⟩
  | cons i is ih =>
    intro st hmem hcoh
    have hin : i < g.n := hmem i (by simp)
    obtain ⟨st1, hok, hcoh1⟩ := checkSecHashF_coh g fs hwf fuel hcoh hin (by omega)
    obtain ⟨st2, hok2, hcoh2⟩ := ih st1 (fun j hj => hmem j (by simp [hj])) hcoh1
    exact ⟨st2, by simp [checkNodesF, hok, hok2], hcoh2⟩

/-- On a fully memoized state, checkSecHash compares the cached hash with the
recombination of the cached parent hashes, and never changes the state. -/
lemma checkSecHashF_stored (g : Graph) (fs : Fs) {fuel i : Nat} {st : St}
    {v : Nat → HVal} (hst : ∀ j, st j = some (v j)) (hfuel : 2 ≤ fuel) :
    checkSecHashF g fs fuel i st =
      if v i = computeStored g fs v i then Except.ok st
      else match g.kind i with
        | NodeKind.job _ => Except.error "secHash of job has changed"
        | _ => Except.error "secHash of artifact has changed" := by
  unfold checkSecHashF
  rw [secHashF_cached g fs (by omega) (hst i)]
  simp only [computeSecHashF_stored g fs hst hfuel]

/-- On a fully memoized state, checking a node list raises exactly when some
node in the list has a cached hash that disagrees with recombination. -/
lemma checkNodesF_stored (g : Graph) (fs : Fs) {fuel : Nat} {st : St}
    {v : Nat → HVal} (hst : ∀ j, st j = some (v j)) (hfuel : 2 ≤ fuel) :
    ∀ nodes,
    ((∃ e, checkNodesF g fs fuel nodes st = Except.error e) ↔
      ∃ i ∈ nodes, v i ≠ computeStored g fs v i) ∧
    ((∀ i ∈ nodes, v i = computeStored g fs v i) →
      checkNodesF g fs fuel nodes st = Except.ok st) := by
  intro nodes
  induction nodes with
  | nil =>
    refine ⟨⟨?_, ?_⟩, fun _ => rfl⟩
    · rintro ⟨e, he⟩; simp [checkNodesF] at he
    · rintro ⟨i, hi, _⟩; simp at hi
  | cons i is ih =>
    by_cases hi : v i = computeStored g fs v i
    · have hstep : checkNodesF g fs fuel (i :: is) st = checkNodesF g fs fuel is st := by
        simp [checkNodesF, checkSecHashF_stored g fs hst hfuel, hi]
      constructor
      · rw [hstep]
        constructor
        · intro he
          obtain ⟨j, hj, hne⟩ := ih.1.mp he
          exact ⟨j, by simp [hj], hne⟩
        · rintro ⟨j, hj, hne⟩
          rcases List.mem_cons.mp hj with rfl | hj2
          · exact absurd hi hne
          · exact ih.1.mpr ⟨j, hj2, hne⟩
      · intro hall
        rw [hstep]
        exact ih.2 (fun j hj => hall j (by simp [hj]))
    · have hstep := checkSecHashF_stored g fs hst hfuel (i := i)
      rw [if_neg hi] at hstep
      constructor
      · constructor
        · intro _
          exact ⟨i, by simp, hi⟩
        · intro _
          cases hk : g.kind i with
          | job ins =>
            exact ⟨"secHash of job has changed", by simp [checkNodesF, hstep, hk]⟩
          | thunkArt t c =>
            exact ⟨"secHash of artifact has changed", by simp [checkNodesF, hstep, hk]⟩
          | fixedDirArt l =>
            exact ⟨"secHash of artifact has changed", by simp [checkNodesF, hstep, hk]⟩
          | fixedFileArt l =>
            exact ⟨"secHash of artifact has changed", by simp [checkNodesF, hstep, hk]⟩
          | jobArt p =>
            exact ⟨"secHash of artifact has changed", by simp [checkNodesF, hstep, hk]⟩
      · intro hall
        exact absurd (hall i (by simp)) hi

lemma Graph.WF.closed {g : Graph} (hwf : g.WF) : g.Closed :=
  fun i hi j hj => lt_trans (hwf i hi j hj) hi

lemma Graph.Closed.artifacts {g : Graph} (hcl : g.Closed) :
    ∀ i < g.n, ∀ j ∈ g.parentArtifactsOf i, j < g.n := by
  intro i hi j hj
  cases hk : g.kind i with
  | jobArt p =>
    have hp : p < g.n :=
      hcl i hi p (by simp [Graph.parentsOf, hk, NodeKind.parentsOf])
    cases hk2 : g.kind p with
    | job ins =>
      have hj2 : j ∈ ins := by
        simpa [Graph.parentArtifactsOf, hk, hk2] using hj
      exact hcl p hp j (by simp [Graph.parentsOf, hk2, NodeKind.parentsOf, hj2])
    | thunkArt t c => simp [Graph.parentArtifactsOf, hk, hk2] at hj
    | fixedDirArt l => simp [Graph.parentArtifactsOf, hk, hk2] at hj
    | fixedFileArt l => simp [Graph.parentArtifactsOf, hk, hk2] at hj
    | jobArt q => simp [Graph.parentArtifactsOf, hk, hk2] at hj
  | thunkArt t c => simp [Graph.parentArtifactsOf, hk] at hj
  | fixedDirArt l => simp [Graph.parentArtifactsOf, hk] at hj
  | fixedFileArt l => simp [Graph.parentArtifactsOf, hk] at hj
  | job ins => simp [Graph.parentArtifactsOf, hk] at hj

/-- Termination of the worklist: inside a finite parent-closed universe U,
each node pushes its parents onto the agenda at most once, so the loop ends
within #agenda plus the total parent-list length over the unvisited part. -/
lemma wlAux_isSome {α : Type} [DecidableEq α] (parents : α → List α)
    (U : Finset α) (hU : ∀ x ∈ U, ∀ p ∈ parents x, p ∈ U) :
    ∀ fuel (agenda : List α) (lookup : Finset α) (ret : List α),
    (∀ x ∈ agenda, x ∈ U) →
    agenda.length + Finset.sum (U \ lookup) (fun x => (parents x).length) ≤ fuel →
    (wlAux parents fuel agenda lookup ret).isSome := by
  intro fuel
  induction fuel with
  | zero =>
    intro agenda lookup ret _ hb
    cases agenda with
    | nil => simp [wlAux]
    | cons node rest => simp at hb
  | succ f ih =>
    intro agenda lookup ret hmem hb
    cases agenda with
    | nil => simp [wlAux]
    | cons node rest =>
      by_cases hl : node ∈ lookup
      · rw [show wlAux parents (f + 1) (node :: rest) lookup ret
            = wlAux parents f rest lookup ret by simp [wlAux, hl]]
        refine ih rest lookup ret (fun x hx => hmem x (by simp [hx])) ?_
        simp only [List.length_cons] at hb
        omega
      · rw [show wlAux parents (f + 1) (node :: rest) lookup ret
            = wlAux parents f (parents node ++ rest) (insert node lookup)
                (ret ++ [node]) by simp [wlAux, hl]]
        have hnodeU : node ∈ U := hmem node (by simp)
        have hnd : node ∈ U \ lookup := Finset.mem_sdiff.mpr ⟨hnodeU, hl⟩
        have hsum : (Finset.sum ((U \ lookup).erase node)
              (fun x => (parents x).length)) + (parents node).length
            = Finset.sum (U \ lookup) (fun x => (parents x).length) :=
          Finset.sum_erase_add (U \ lookup) (fun x => (parents x).length) hnd
        have hdiff : U \ insert node lookup = (U \ lookup).erase node := by
          ext y
          simp only [Finset.mem_sdiff, Finset.mem_insert, Finset.mem_erase]
          tauto
        refine ih (parents node ++ rest) (insert node lookup) (ret ++ [node]) ?_ ?_
        · intro x hx
          rcases List.mem_append.mp hx with hx1 | hx2
          · exact hU node hnodeU x hx1
          · exact hmem x (by simp [hx2])
        · rw [hdiff]
          simp only [List.length_append, List.length_cons] at hb ⊢
          omega

/-- Soundness of the worklist: any property closed under the parents relation
that holds on the agenda and the output so far holds on the final output. -/
lemma wl_sound {α : Type} [DecidableEq α] (parents : α → List α) (Q : α → Prop)
    (hQ : ∀ a, Q a → ∀ p ∈ parents a, Q p) :
    ∀ fuel (agenda : List α) (lookup : Finset α) (ret out : List α),
    wlAux parents fuel agenda lookup ret = some out →
    (∀ x ∈ agenda, Q x) → (∀ x ∈ ret, Q x) → ∀ x ∈ out, Q x := by
  intro fuel
  induction fuel with
  | zero =>
    intro agenda lookup ret out hout ha hr
    cases agenda with
    | nil =>
      simp only [wlAux, Option.some_inj] at hout
      rw [← hout]; exact hr
    | cons node rest => simp [wlAux] at hout
  | succ f ih =>
    intro agenda lookup ret out hout ha hr
    cases agenda with
    | nil =>
      simp only [wlAux, Option.some_inj] at hout
      rw [← hout]; exact hr
    | cons node rest =>
      by_cases hl : node ∈ lookup
      · rw [show wlAux parents (f + 1) (node :: rest) lookup ret
            = wlAux parents f rest lookup ret by simp [wlAux, hl]] at hout
        exact ih rest lookup ret out hout (fun x hx => ha x (by simp [hx])) hr
      · rw [show wlAux parents (f + 1) (node :: rest) lookup ret
            = wlAux parents f (parents node ++ rest) (insert node lookup)
                (ret ++ [node]) by simp [wlAux, hl]] at hout
        have hqn : Q node := ha node (by simp)
        refine ih (parents node ++ rest) (insert node lookup) (ret ++ [node])
          out hout ?_ ?_
        · intro x hx
          rcases List.mem_append.mp hx with hx1 | hx2
          · exact hQ node hqn x hx1
          · exact ha x (by simp [hx2])
        · intro x hx
          rcases List.mem_append.mp hx with hx1 | hx2
          · exact hr x hx1
          · rw [List.mem_singleton.mp hx2]; exact hqn

/-- Completeness and dedup of the worklist: under the loop invariants, the
output is duplicate-free, absorbs the agenda and the visited set, and is
closed under the parents relation. -/
lemma wl_invariant {α : Type} [DecidableEq α] (parents : α → List α) :
    ∀ fuel (agenda : List α) (lookup : Finset α) (ret out : List α),
    wlAux parents fuel agenda lookup ret = some out →
    ret.Nodup → (∀ x, x ∈ ret ↔ x ∈ lookup) →
    (∀ x ∈ lookup, ∀ p ∈ parents x, p ∈ lookup ∨ p ∈ agenda) →
    out.Nodup ∧ (∀ x ∈ agenda, x ∈ out) ∧ (∀ x ∈ lookup, x ∈ out) ∧
    (∀ x ∈ out, ∀ p ∈ parents x, p ∈ out) := by
  intro fuel
  induction fuel with
  | zero =>
    intro agenda lookup ret out hout hnd hrl hinv
    cases agenda with
    | nil =>
      simp only [wlAux, Option.some_inj] at hout
      subst hout
      refine ⟨hnd, by simp, fun x hx => (hrl x).mpr hx, ?_⟩
      intro x hx p hp
      rcases hinv x ((hrl x).mp hx) p hp with h | h
      · exact (hrl p).mpr h
      · simp at h
    | cons node rest => simp [wlAux] at hout
  | succ f ih =>
    intro agenda lookup ret out hout hnd hrl hinv
    cases agenda with
    | nil =>
      simp only [wlAux, Option.some_inj] at hout
      subst hout
      refine ⟨hnd, by simp, fun x hx => (hrl x).mpr hx, ?_⟩
      intro x hx p hp
      rcases hinv x ((hrl x).mp hx) p hp with h | h
      · exact (hrl p).mpr h
      · simp at h
    | cons node rest =>
      by_cases hl : node ∈ lookup
      · rw [show wlAux parents (f + 1) (node :: rest) lookup ret
            = wlAux parents f rest lookup ret by simp [wlAux, hl]] at hout
        have hinv2 : ∀ x ∈ lookup, ∀ p ∈ parents x, p ∈ lookup ∨ p ∈ rest := by
          intro x hx p hp
          rcases hinv x hx p hp with h | h
          · exact Or.inl h
          · rcases List.mem_cons.mp h with rfl | h2
            · exact Or.inl hl
            · exact Or.inr h2
        obtain ⟨o1, o2, o3, o4⟩ := ih rest lookup ret out hout hnd hrl hinv2
        refine ⟨o1, ?_, o3, o4⟩
        intro x hx
        rcases List.mem_cons.mp hx with rfl | h2
        · exact o3 x hl
        · exact o2 x h2
      · rw [show wlAux parents (f + 1) (node :: rest) lookup ret
            = wlAux parents f (parents node ++ rest) (insert node lookup)
                (ret ++ [node]) by simp [wlAux, hl]] at hout
        have hnr : node ∉ ret := fun hc => hl ((hrl node).mp hc)
        have hnd2 : (ret ++ [node]).Nodup := by
          simp [List.nodup_append, hnd, hnr]
        have hrl2 : ∀ x, x ∈ ret ++ [node] ↔ x ∈ insert node lookup := by
          intro x
          simp only [List.mem_append, List.mem_singleton, Finset.mem_insert]
          rw [hrl x]
          tauto
        have hinv2 : ∀ x ∈ insert node lookup, ∀ p ∈ parents x,
            p ∈ insert node lookup ∨ p ∈ parents node ++ rest := by
          intro x hx p hp
          rcases Finset.mem_insert.mp hx with rfl | h2
          · exact Or.inr (List.mem_append.mpr (Or.inl hp))
          · rcases hinv x h2 p hp with h | h
            · exact Or.inl (Finset.mem_insert.mpr (Or.inr h))
            · rcases List.mem_cons.mp h with rfl | h3
              · exact Or.inl (Finset.mem_insert.mpr (Or.inl rfl))
              · exact Or.inr (List.mem_append.mpr (Or.inr h3))
        obtain ⟨o1, o2, o3, o4⟩ := ih (parents node ++ rest)
          (insert node lookup) (ret ++ [node]) out hout hnd2 hrl2 hinv2
        refine ⟨o1, ?_, ?_, o4⟩
        · intro x hx
          rcases List.mem_cons.mp hx with rfl | h2
          · exact o3 x (Finset.mem_insert.mpr (Or.inl rfl))
          · exact o2 x (List.mem_append.mpr (Or.inr h2))
        · intro x hx
          exact o3 x (Finset.mem_insert.mpr (Or.inr hx))

/-- With its computed fuel, the node-level worklist always returns. -/
lemma ancestors_run (g : Graph) (hcl : g.Closed) (init : List Nat)
    (hinit : ∀ x ∈ init, x < g.n) :
    wlAux g.parentsOf (wlFuel g.parentsOf (Finset.range g.n) init)
      init.reverse ∅ [] = some (ancestors g init) := by
  have hsome := wlAux_isSome g.parentsOf (Finset.range g.n)
    (fun x hx p hp => Finset.mem_range.mpr
      (hcl x (Finset.mem_range.mp hx) p hp))
    (wlFuel g.parentsOf (Finset.range g.n) init) init.reverse ∅ []
    (fun x hx => Finset.mem_range.mpr (hinit x (List.mem_reverse.mp hx)))
    (by simp [wlFuel])
  obtain ⟨out, hout⟩ := Option.isSome_iff_exists.mp hsome
  rw [hout]
  unfold ancestors
  rw [hout]
  rfl

/-- Correctness of ancestors: duplicate-free, and contains exactly the nodes
reachable from the starting nodes along the parents relation. -/
lemma ancestors_spec (g : Graph) (hcl : g.Closed) (init : List Nat)
    (hinit : ∀ x ∈ init, x < g.n) :
    (ancestors g init).Nodup ∧
    ∀ x, x ∈ ancestors g init ↔ ∃ s ∈ init, g.Reach s x := by
  have hrun := ancestors_run g hcl init hinit
  obtain ⟨o1, o2, _, o4⟩ := wl_invariant g.parentsOf _ init.reverse ∅ []
    (ancestors g init) hrun List.nodup_nil (by simp) (by simp)
  have hsound := wl_sound g.parentsOf (fun x => ∃ s ∈ init, g.Reach s x)
    (by
      rintro a ⟨s, hs, hr⟩ p hp
      exact ⟨s, hs, Relation.ReflTransGen.tail hr hp⟩)
    _ init.reverse ∅ [] (ancestors g init) hrun
    (by
      intro x hx
      exact ⟨x, List.mem_reverse.mp hx, Relation.ReflTransGen.refl⟩)
    (by simp)
  refine ⟨o1, fun x => ⟨hsound x, ?_⟩⟩
  rintro ⟨s, hs, hr⟩
  induction hr with
  | refl => exact o2 s (List.mem_reverse.mpr hs)
  | tail hr2 hp ih => exact o4 _ ih _ hp

/-- The computeValue closure of outError, resolved: error exactly on a frame
count mismatch, and otherwise the per-utterance error sum. -/
lemma outErrorValue_eq {UttId In Out Frame Vec : Type}
    (c : Corpus UttId In Out) (dist : SynthDist In Out)
    (vecError : Vec → Vec → Int) (frameToVec : Frame → Vec)
    (outputToFrameSeq : Out → List Frame) (u : UttId) :
    outErrorValue c dist vecError frameToVec outputToFrameSeq u =
      if FrameMismatch c dist outputToFrameSeq u then
        Except.error
          "actual and synthesized sequences must have the same length to compute error"
      else Except.ok (perUttError c dist vecError frameToVec outputToFrameSeq u) := by
  unfold outErrorValue FrameMismatch perUttError
  by_cases hm : (outputToFrameSeq (c.data u).2).length ≠
      (outputToFrameSeq
        (dist.synth (c.data u).1 SynthMethod.Meanish (c.data u).2)).length
  · rw [if_pos hm]
  · rw [if_neg hm]

/-- The summation loop raises exactly when some utterance raises. -/
lemma corpusSumE_error_iff {UttId : Type} (f : UttId → Except String Int) :
    ∀ us : List UttId,
    (∃ e, corpusSumE f us = Except.error e) ↔ ∃ u ∈ us, ∃ e, f u = Except.error e := by
  intro us
  induction us with
  | nil =>
    constructor
    · rintro ⟨e, he⟩; simp [corpusSumE] at he
    · rintro ⟨u, hu, _⟩; simp at hu
  | cons u us ih =>
    constructor
    · rintro ⟨e, he⟩
      unfold corpusSumE at he
      cases hf : f u with
      | error e2 => exact ⟨u, by simp, e2, hf⟩
      | ok v =>
        rw [hf] at he
        cases hs : corpusSumE f us with
        | error e2 =>
          obtain ⟨u2, hu2, he2⟩ := ih.mp ⟨e2, hs⟩
          exact ⟨u2, by simp [hu2], he2⟩
        | ok w => rw [hs] at he; simp at he
    · rintro ⟨u2, hu2, e, he⟩
      rcases List.mem_cons.mp hu2 with rfl | h2
      · exact ⟨e, by simp [corpusSumE, he]⟩
      · cases hf : f u with
        | error e2 => exact ⟨e2, by simp [corpusSumE, hf]⟩
        | ok v =>
          obtain ⟨e3, he3⟩ := ih.mpr ⟨u2, h2, e, he⟩
          exact ⟨e3, by simp [corpusSumE, hf, he3]⟩

/-- When no utterance raises, the loop returns the sum of the values. -/
lemma corpusSumE_ok {UttId : Type} (f : UttId → Except String Int)
    (v : UttId → Int) :
    ∀ us : List UttId, (∀ u ∈ us, f u = Except.ok (v u)) →
    corpusSumE f us = Except.ok ((us.map v).sum) := by
  intro us
  induction us with
  | nil => intro _; simp [corpusSumE]
  | cons u us ih =>
    intro hall
    have hf : f u = Except.ok (v u) := hall u (by simp)
    have hs := ih (fun w hw => hall w (by simp [hw]))
    simp [corpusSumE, hf, hs]

/-- Repeated loadValue on a caching thunk artifact whose value slot is filled
returns the slot value every time and never calls the thunk again. -/
lemma thunkRun_cached {V : Type} (thunk : Nat → V) (v : V) (c : Nat) :
    ∀ k, thunkRun thunk true k ⟨some v, c⟩ = (List.replicate k v, ⟨some v, c⟩) := by
  intro k
  induction k with
  | zero => simp [thunkRun]
  | succ m ih => simp [thunkRun, thunkLoadValue, ih, List.replicate_succ]

/-- Repeated loadValue on a non-caching thunk artifact calls the thunk once
per call, returning each fresh result in order. -/
lemma thunkRun_fresh {V : Type} (thunk : Nat → V) :
    ∀ k (o : Option V) (c : Nat),
    thunkRun thunk false k ⟨o, c⟩ =
      ((List.range' c k).map thunk, ⟨o, c + k⟩) := by
  intro k
  induction k with
  | zero => intro o c; simp [thunkRun]
  | succ m ih =>
    intro o c
    simp only [thunkRun, thunkLoadValue, Bool.false_eq_true, if_false, ih,
      List.range', List.map_cons, Prod.mk.injEq, ThunkSt.mk.injEq]
    exact ⟨trivial, trivial, by omega⟩

/-- Repeated secHash on a node whose memo slot is filled returns the slot
value every time with no further computeSecHash invocation. -/
lemma secHashRun_cached (compute : Nat → HVal) (h : HVal) (c : Nat) :
    ∀ k, secHashRun compute k (some h, c) = (List.replicate k h, (some h, c)) := by
  intro k
  induction k with
  | zero => simp [secHashRun]
  | succ m ih => simp [secHashRun, secHashOp, ih, List.replicate_succ]

/-- computeStored only reads the caches of the node's parents. -/
lemma computeStored_congr (g : Graph) (fs : Fs) {v w : Nat → HVal} (i : Nat)
    (h : ∀ j ∈ g.parentsOf i, v j = w j) :
    computeStored g fs v i = computeStored g fs w i := by
  cases hk : g.kind i with
  | thunkArt t c => simp [computeStored, hk]
  | fixedDirArt l => simp [computeStored, hk]
  | fixedFileArt l => simp [computeStored, hk]
  | jobArt p =>
    have hv := h p (by simp [Graph.parentsOf, hk, NodeKind.parentsOf])
    simp [computeStored, hk, hv]
  | job ins =>
    have hv : ins.map v = ins.map w := by
      refine List.map_congr_left ?_
      intro j hj
      exact h j (by simp [Graph.parentsOf, hk, NodeKind.parentsOf, hj])
    simp [computeStored, hk, hv]

/-- A successful checkSecHash only fills memo slots, never changes one. -/
lemma checkSecHashF_le (g : Graph) (fs : Fs) (fuel i : Nat) (st st' : St)
    (h : checkSecHashF g fs fuel i st = Except.ok st') : St.Le st st' := by
  have h1 := (hashOpsLe g fs fuel).1 i st
  have h2 := (hashOpsLe g fs fuel).2.2 i (secHashF g fs fuel i st).2
  simp only [checkSecHashF] at h
  split at h
  · simp only [Except.ok.injEq] at h
    rw [← h]
    exact St.Le.trans h1 h2
  · split at h <;> simp at h

/-- A successful checkNodes run only fills memo slots. -/
lemma checkNodesF_le (g : Graph) (fs : Fs) (fuel : Nat) :
    ∀ (nodes : List Nat) (st st' : St),
    checkNodesF g fs fuel nodes st = Except.ok st' → St.Le st st' := by
  intro nodes
  induction nodes with
  | nil =>
    intro st st' h
    simp only [checkNodesF, Except.ok.injEq] at h
    rw [← h]
    exact St.Le.refl st
  | cons i is ih =>
    intro st st' h
    unfold checkNodesF at h
    cases hc : checkSecHashF g fs fuel i st with
    | ok st2 =>
      rw [hc] at h
      exact St.Le.trans (checkSecHashF_le g fs fuel i st st2 hc) (ih st2 st' h)
    | error e => rw [hc] at h; simp at h

/-! Claim theorems. -/

/-- C3: for every finite list of starting nodes, the ancestors traversal
returns a list in which every node reachable from the starting nodes via the
parents relation appears exactly once, including each starting node itself,
even when a node is reachable along two or more different paths. -/
theorem ancestors_each_reachable_exactly_once (g : Graph) (init : List Nat)
    (hcl : g.Closed) (hinit : ∀ x ∈ init, x < g.n) :
    (ancestors g init).Nodup ∧
    ∀ x, x ∈ ancestors g init ↔ ∃ s ∈ init, g.Reach s x :=
  ancestors_spec g hcl init hinit

/-- Witness for C3 on the diamond graph: node 0 is reachable from node 3
along two different paths and still appears exactly once. -/
theorem ancestors_each_reachable_exactly_once_witness :
    gDiamond.Closed ∧
    ((ancestors gDiamond [3]).Nodup ∧
      ∀ x, x ∈ ancestors gDiamond [3] ↔ ∃ s ∈ [3], gDiamond.Reach s x) ∧
    ancestors gDiamond [3] = [3, 1, 0, 2] := by
  have hcl : gDiamond.Closed := by
    unfold Graph.Closed gDiamond Graph.parentsOf NodeKind.parentsOf
    decide
  refine ⟨hcl, ancestors_each_reachable_exactly_once gDiamond [3] hcl
    (by intro x hx; simp at hx; simp [hx, gDiamond]), ?_⟩
  rfl

/-- C9: the ancestors and ancestorArtifacts traversals terminate for every
finite set of starting nodes, even when the parents (or parent-artifacts)
relation contains a cycle: with the lookup set recording visited ids, each
node pushes its parents at most once, so the computed iteration budget
(initial agenda plus total parent-list length) empties the agenda. -/
theorem traversals_terminate (g : Graph) (init : List Nat)
    (hcl : g.Closed) (hinit : ∀ x ∈ init, x < g.n) :
    (wlAux g.parentsOf (wlFuel g.parentsOf (Finset.range g.n) init)
      init.reverse ∅ []).isSome ∧
    (wlAux g.parentArtifactsOf (wlFuel g.parentArtifactsOf (Finset.range g.n) init)
      init.reverse ∅ []).isSome := by
  constructor
  · exact wlAux_isSome g.parentsOf (Finset.range g.n)
      (fun x hx p hp => Finset.mem_range.mpr
        (hcl x (Finset.mem_range.mp hx) p hp))
      _ init.reverse ∅ []
      (fun x hx => Finset.mem_range.mpr (hinit x (List.mem_reverse.mp hx)))
      (by simp [wlFuel])
  · exact wlAux_isSome g.parentArtifactsOf (Finset.range g.n)
      (fun x hx p hp => Finset.mem_range.mpr
        (hcl.artifacts x (Finset.mem_range.mp hx) p hp))
      _ init.reverse ∅ []
      (fun x hx => Finset.mem_range.mpr (hinit x (List.mem_reverse.mp hx)))
      (by simp [wlFuel])

/-- Witness for C9 on a two-node parent cycle. -/
theorem traversals_terminate_witness :
    gCycle.Closed ∧
    ((wlAux gCycle.parentsOf
        (wlFuel gCycle.parentsOf (Finset.range gCycle.n) [0]) [0].reverse ∅ []).isSome ∧
      (wlAux gCycle.parentArtifactsOf
        (wlFuel gCycle.parentArtifactsOf (Finset.range gCycle.n) [0]) [0].reverse ∅ []).isSome) := by
  have hcl : gCycle.Closed := by
    unfold Graph.Closed gCycle Graph.parentsOf NodeKind.parentsOf
    decide
  exact ⟨hcl, traversals_terminate gCycle [0] hcl
    (by intro x hx; simp at hx; simp [hx, gCycle])⟩

/-- C4: the first secHash call invokes computeSecHash exactly once and stores
its result; every call returns that stored value; and no operation (secHash
on any node, or a successful checkAllSecHash) ever overwrites a stored hash,
even if the graph or filesystem (the node inputs) have changed since. -/
theorem secHash_memoized_once :
    (∀ (compute : Nat → HVal) (k : Nat), 1 ≤ k →
      (secHashRun compute k (none, 0)).2 = (some (compute 0), 1) ∧
      ∀ h ∈ (secHashRun compute k (none, 0)).1, h = compute 0) ∧
    (∀ (g : Graph) (fs : Fs) (fuel i : Nat) (st : St) (h : HVal),
      st i = some h → 1 ≤ fuel → secHashF g fs fuel i st = (h, st)) ∧
    (∀ (g : Graph) (fs : Fs) (fuel s : Nat) (st st' : St) (i : Nat) (h : HVal),
      checkAllSecHashF g fs fuel s st = Except.ok st' → st i = some h →
      st' i = some h) := by
  refine ⟨?_, ?_, ?_⟩
  · intro compute k hk
    obtain ⟨m, rfl⟩ : ∃ m, k = m + 1 := ⟨k - 1, by omega⟩
    have hrun : secHashRun compute (m + 1) (none, 0) =
        (compute 0 :: List.replicate m (compute 0), (some (compute 0), 1)) := by
      simp [secHashRun, secHashOp, secHashRun_cached]
    rw [hrun]
    refine ⟨rfl, ?_⟩
    intro h hh
    rcases List.mem_cons.mp hh with rfl | h2
    · rfl
    · exact List.eq_of_mem_replicate h2
  · intro g fs fuel i st h hst hfuel
    exact secHashF_cached g fs hfuel hst
  · intro g fs fuel s st st' i h hok hst
    exact checkNodesF_le g fs fuel (ancestors g [s]) st st' hok i h hst

/-- Witness for C4: three secHash calls on one node invoke computeSecHash
once; a filled memo slot is returned unchanged under a different graph and
filesystem; a successful checkAllSecHash keeps the stored hash. -/
theorem secHash_memoized_once_witness :
    ((secHashRun (fun _ => HVal.nat 5) 3 (none, 0)).2 = (some (HVal.nat 5), 1) ∧
      ∀ h ∈ (secHashRun (fun _ => HVal.nat 5) 3 (none, 0)).1, h = HVal.nat 5) ∧
    secHashF gCycle fsEmpty 1 0 (fun _ => some (HVal.nat 7)) =
      (HVal.nat 7, fun _ => some (HVal.nat 7)) ∧
    (fun _ => some (HVal.digest (HVal.pair (HVal.nat 0) (HVal.str "nowhere")))
      : St) 0 = some (HVal.digest (HVal.pair (HVal.nat 0) (HVal.str "nowhere"))) := by
  refine ⟨secHash_memoized_once.1 (fun _ => HVal.nat 5) 3 (by decide), ?_, ?_⟩
  · exact secHash_memoized_once.2.1 gCycle fsEmpty 1 0 _ (HVal.nat 7) rfl (by decide)
  · exact secHash_memoized_once.2.2 gDir fsEmpty 2 0
      (fun _ => some (HVal.digest (HVal.pair (HVal.nat 0) (HVal.str "nowhere"))))
      (fun _ => some (HVal.digest (HVal.pair (HVal.nat 0) (HVal.str "nowhere"))))
      0 (HVal.digest (HVal.pair (HVal.nat 0) (HVal.str "nowhere")))
      (by with_unfolding_all rfl) rfl

/-- C6: a caching ThunkArtifact invokes its thunk at most once per process
(exactly once as soon as loadValue is called) and every loadValue call
returns the value of that single invocation; a non-caching one invokes the
thunk exactly once per call and returns each fresh result. -/
theorem thunkArtifact_loadValue_caching {V : Type} (thunk : Nat → V) (k : Nat) :
    (1 ≤ k →
      (thunkRun thunk true k ⟨none, 0⟩).2.calls = 1 ∧
      ∀ v ∈ (thunkRun thunk true k ⟨none, 0⟩).1, v = thunk 0) ∧
    ((thunkRun thunk false k ⟨none, 0⟩).2.calls = k ∧
      (thunkRun thunk false k ⟨none, 0⟩).1 = (List.range' 0 k).map thunk) := by
  constructor
  · intro hk
    obtain ⟨m, rfl⟩ : ∃ m, k = m + 1 := ⟨k - 1, by omega⟩
    have hrun : thunkRun thunk true (m + 1) ⟨none, 0⟩ =
        (thunk 0 :: List.replicate m (thunk 0), ⟨some (thunk 0), 1⟩) := by
      simp [thunkRun, thunkLoadValue, thunkRun_cached]
    rw [hrun]
    refine ⟨rfl, ?_⟩
    intro v hv
    rcases List.mem_cons.mp hv with rfl | h2
    · rfl
    · exact List.eq_of_mem_replicate h2
  · rw [thunkRun_fresh thunk k none 0]
    exact ⟨by simp, rfl⟩

/-- Witness for C6 with an injective thunk and three calls. -/
theorem thunkArtifact_loadValue_caching_witness :
    ((thunkRun (fun j => j) true 3 ⟨none, 0⟩).2.calls = 1 ∧
      ∀ v ∈ (thunkRun (fun j => j) true 3 ⟨none, 0⟩).1, v = 0) ∧
    ((thunkRun (fun j => j) false 3 ⟨none, 0⟩).2.calls = 3 ∧
      (thunkRun (fun j => j) false 3 ⟨none, 0⟩).1 = (List.range' 0 3).map (fun j => j)) :=
  ⟨(thunkArtifact_loadValue_caching (fun j => j) 3).1 (by decide),
    (thunkArtifact_loadValue_caching (fun j => j) 3).2⟩

/-- C1: two Job instances have equal computeSecHash results exactly when
their classes have the same defining-code hash and their ordered input
artifact lists have pairwise-equal identity hashes (the hash primitives being
collision-free by construction in this model). -/
theorem job_computeSecHash_iff (g1 g2 : Graph) (fs1 fs2 : Fs) (i1 i2 : Nat)
    (ins1 ins2 : List Nat) (fuel1 fuel2 : Nat)
    (hwf1 : g1.WF) (hwf2 : g2.WF) (hi1 : i1 < g1.n) (hi2 : i2 < g2.n)
    (hk1 : g1.kind i1 = NodeKind.job ins1) (hk2 : g2.kind i2 = NodeKind.job ins2)
    (hf1 : 2 * i1 + 1 ≤ fuel1) (hf2 : 2 * i2 + 1 ≤ fuel2) :
    (computeSecHashF g1 fs1 fuel1 i1 St.empty).1 =
      (computeSecHashF g2 fs2 fuel2 i2 St.empty).1 ↔
    (g1.classHash i1 = g2.classHash i2 ∧
      ins1.map (trueHash g1 fs1) = ins2.map (trueHash g2 fs2)) := by
  have hv1 := ((hashCoh g1 fs1 hwf1 fuel1).2.2 i1 St.empty (Coh.empty g1 fs1)
    hi1 hf1).1
  have hv2 := ((hashCoh g2 fs2 hwf2 fuel2).2.2 i2 St.empty (Coh.empty g2 fs2)
    hi2 hf2).1
  rw [hv1, hv2, trueHash_eq_computeStored g1 fs1 hwf1 hi1,
    trueHash_eq_computeStored g2 fs2 hwf2 hi2]
  simp only [computeStored, hk1, hk2, secHashObject, HVal.digest.injEq,
    HVal.pair.injEq, HVal.nat.injEq]
  constructor
  · rintro ⟨ha, hb⟩
    exact ⟨ha, HVal.ofList_inj hb⟩
  · rintro ⟨ha, hb⟩
    rw [ha, hb]
    exact ⟨rfl, rfl⟩

/-- Witness for C1: the same concrete job on both sides, giving equal hashes
and equal components. -/
theorem job_computeSecHash_iff_witness :
    gJob.WF ∧
    ((computeSecHashF gJob fsEmpty 3 1 St.empty).1 =
        (computeSecHashF gJob fsEmpty 4 1 St.empty).1 ↔
      (gJob.classHash 1 = gJob.classHash 1 ∧
        ([0] : List Nat).map (trueHash gJob fsEmpty) =
          ([0] : List Nat).map (trueHash gJob fsEmpty))) := by
  have hwf : gJob.WF := by
    unfold Graph.WF gJob Graph.parentsOf NodeKind.parentsOf
    decide
  exact ⟨hwf, job_computeSecHash_iff gJob gJob fsEmpty fsEmpty 1 1 [0] [0] 3 4
    hwf hwf (by decide) (by decide) rfl rfl (by decide) (by decide)⟩

/-- C5: a JobArtifact's loc is the join of the repository cache directory
with the artifact's own identity hash, isDone tests existence at exactly that
path, and any JobArtifact with the same identity hash gets the same path
under the same repository. -/
theorem jobArtifact_loc_isDone (g : Graph) (fs : Fs) (ex : FsExists)
    (repo : BuildRepo) (fuel i p : Nat) (st : St)
    (hwf : g.WF) (hcoh : Coh g fs st) (hin : i < g.n)
    (hk : g.kind i = NodeKind.jobArt p) (hfuel : 2 * i + 2 ≤ fuel) :
    (locF g fs repo fuel i st).1 =
      some (FPath.join repo.cacheDir (trueHash g fs i)) ∧
    (isDoneF g fs ex repo fuel i st).1 =
      ex (FPath.join repo.cacheDir (trueHash g fs i)) ∧
    (∀ (g2 : Graph) (fs2 : Fs) (st2 : St) (fuel2 i2 p2 : Nat),
      g2.WF → Coh g2 fs2 st2 → i2 < g2.n →
      g2.kind i2 = NodeKind.jobArt p2 → 2 * i2 + 2 ≤ fuel2 →
      trueHash g2 fs2 i2 = trueHash g fs i →
      (locF g2 fs2 repo fuel2 i2 st2).1 = (locF g fs repo fuel i st).1) := by
  have hv := ((hashCoh g fs hwf fuel).1 i st hcoh hin hfuel).1
  have hloc : (locF g fs repo fuel i st).1 =
      some (FPath.join repo.cacheDir (trueHash g fs i)) := by
    simp [locF, hk, hv]
  refine ⟨hloc, by simp [isDoneF, hk, hv], ?_⟩
  intro g2 fs2 st2 fuel2 i2 p2 hwf2 hcoh2 hin2 hk2 hfuel2 heq
  have hv2 := ((hashCoh g2 fs2 hwf2 fuel2).1 i2 st2 hcoh2 hin2 hfuel2).1
  rw [hloc]
  simp [locF, hk2, hv2, heq]

/-- Witness for C5 on the chain graph's output artifact (node 2). -/
theorem jobArtifact_loc_isDone_witness :
    gChain.WF ∧
    ((locF gChain fsEmpty repo0 6 2 St.empty).1 =
        some (FPath.join repo0.cacheDir (trueHash gChain fsEmpty 2)) ∧
      (isDoneF gChain fsEmpty exNone repo0 6 2 St.empty).1 =
        exNone (FPath.join repo0.cacheDir (trueHash gChain fsEmpty 2)) ∧
      (∀ (g2 : Graph) (fs2 : Fs) (st2 : St) (fuel2 i2 p2 : Nat),
        g2.WF → Coh g2 fs2 st2 → i2 < g2.n →
        g2.kind i2 = NodeKind.jobArt p2 → 2 * i2 + 2 ≤ fuel2 →
        trueHash g2 fs2 i2 = trueHash gChain fsEmpty 2 →
        (locF g2 fs2 repo0 fuel2 i2 st2).1 =
          (locF gChain fsEmpty repo0 6 2 St.empty).1)) := by
  have hwf : gChain.WF := by
    unfold Graph.WF gChain Graph.parentsOf NodeKind.parentsOf
    decide
  exact ⟨hwf, jobArtifact_loc_isDone gChain fsEmpty exNone repo0 6 2 1 St.empty
    hwf (Coh.empty gChain fsEmpty) (by decide) rfl (by decide)⟩

/-- C10: outError raises exactly when some given utterance has synthesized
and actual frame sequences of different lengths, and otherwise returns the
sum over the given utterances of the per-frame vecError between corresponding
synthesized and actual frames. -/
theorem outError_spec {UttId In Out Frame Vec : Type}
    (c : Corpus UttId In Out) (dist : SynthDist In Out) (uttIds : List UttId)
    (vecError : Vec → Vec → Int) (frameToVec : Frame → Vec)
    (outputToFrameSeq : Out → List Frame) :
    ((∃ e, outError c dist uttIds vecError frameToVec outputToFrameSeq =
        Except.error e) ↔
      ∃ u ∈ uttIds, FrameMismatch c dist outputToFrameSeq u) ∧
    ((∀ u ∈ uttIds, ¬ FrameMismatch c dist outputToFrameSeq u) →
      outError c dist uttIds vecError frameToVec outputToFrameSeq =
        Except.ok ((uttIds.map
          (perUttError c dist vecError frameToVec outputToFrameSeq)).sum)) := by
  constructor
  · rw [outError, corpusSumE_error_iff]
    constructor
    · rintro ⟨u, hu, e, he⟩
      rw [outErrorValue_eq] at he
      by_cases hm : FrameMismatch c dist outputToFrameSeq u
      · exact ⟨u, hu, hm⟩
      · rw [if_neg hm] at he
        simp at he
    · rintro ⟨u, hu, hm⟩
      refine ⟨u, hu, ?_, ?_⟩
      · exact "actual and synthesized sequences must have the same length to compute error"
      · rw [outErrorValue_eq, if_pos hm]
  · intro hall
    rw [outError]
    exact corpusSumE_ok _ _ uttIds
      (fun u hu => by rw [outErrorValue_eq, if_neg (hall u hu)])

/-- Witness for C10: a two-utterance corpus with a mean-reproducing synth has
no mismatch, and outError returns the summed error. -/
theorem outError_spec_witness :
    (∀ u ∈ ([0, 1] : List Nat),
      ¬ FrameMismatch (⟨fun u => (u, [(1 : Int), 2])⟩ : Corpus Nat Nat (List Int))
        (⟨fun _ _ a => a.map (fun x => x + 1)⟩ : SynthDist Nat (List Int))
        (fun o => o) u) ∧
    outError (⟨fun u => (u, [(1 : Int), 2])⟩ : Corpus Nat Nat (List Int))
        (⟨fun _ _ a => a.map (fun x => x + 1)⟩ : SynthDist Nat (List Int))
        [0, 1] (fun a b => a - b) (fun f => f) (fun o => o) =
      Except.ok ((([0, 1] : List Nat).map
        (perUttError (⟨fun u => (u, [(1 : Int), 2])⟩ : Corpus Nat Nat (List Int))
          (⟨fun _ _ a => a.map (fun x => x + 1)⟩ : SynthDist Nat (List Int))
          (fun a b => a - b) (fun f => f) (fun o => o))).sum) := by
  have hall : ∀ u ∈ ([0, 1] : List Nat),
      ¬ FrameMismatch (⟨fun u => (u, [(1 : Int), 2])⟩ : Corpus Nat Nat (List Int))
        (⟨fun _ _ a => a.map (fun x => x + 1)⟩ : SynthDist Nat (List Int))
        (fun o => o) u := by
    intro u _
    unfold FrameMismatch
    simp
  exact ⟨hall, (outError_spec _ _ [0, 1] _ _ _).2 hall⟩

/-- C7 counterexample: a FixedDirArtifact whose location does not exist has
isDone false, yet loadValue succeeds, returning the location, instead of
failing as the claim states. -/
theorem fixedDir_loadValue_counterexample :
    (isDoneF gDir fsEmpty exNone repo0 1 0 St.empty).1 = false ∧
    (loadValueF gDir fsEmpty exNone repo0 1 0 St.empty).1 =
      Except.ok (AValue.path "nowhere") :=
  ⟨rfl, rfl⟩

/-- C7 amended: for every FixedDirArtifact, isDone tests existence at the
location, and loadValue succeeds returning the location string whether or not
the location exists (the artifact value is the location itself; any failure
surfaces only in consumers of that path). -/
theorem fixedDir_loadValue_total (g : Graph) (fs : Fs) (ex : FsExists)
    (repo : BuildRepo) (fuel i : Nat) (st : St) (l : String)
    (hk : g.kind i = NodeKind.fixedDirArt l) :
    (isDoneF g fs ex repo fuel i st).1 = ex (FPath.plain l) ∧
    (loadValueF g fs ex repo fuel i st).1 = Except.ok (AValue.path l) := by
  constructor
  · simp [isDoneF, hk]
  · simp [loadValueF, hk]

/-- Witness for the amended C7 at the nonexistent location. -/
theorem fixedDir_loadValue_total_witness :
    gDir.kind 0 = NodeKind.fixedDirArt "nowhere" ∧
    ((isDoneF gDir fsEmpty exNone repo0 1 0 St.empty).1 =
        exNone (FPath.plain "nowhere") ∧
      (loadValueF gDir fsEmpty exNone repo0 1 0 St.empty).1 =
        Except.ok (AValue.path "nowhere")) :=
  ⟨rfl, fixedDir_loadValue_total gDir fsEmpty exNone repo0 1 0 St.empty
    "nowhere" rfl⟩

/-- C8 counterexample: one FixedFileArtifact, constructed identically, hashed
after the file contents changed from the construction-time contents: the
identity hash differs from the one obtained with the original contents, so
the hash is not determined by the contents at construction time, and a change
made after construction (before the first hash computation) does change it. -/
theorem fixedFile_constructionTime_counterexample :
    (secHashF gFile (fun _ => "B") 2 0 St.empty).1 ≠
      (secHashF gFile (fun _ => "A") 2 0 St.empty).1 := by
  have key : ∀ fs : Fs, (secHashF gFile fs 2 0 St.empty).1 =
      secHashObject (HVal.pair (HVal.nat 0) (secHashFile (fs "f"))) := by
    intro fs
    show (secHashF gFile fs (1 + 1) 0 St.empty).1 = _
    simp [secHashF, computeSecHashF, St.empty, gFile]
  rw [key, key]
  simp [secHashObject, secHashFile]

/-- C8 amended: a FixedFileArtifact's identity hash combines the defining
code hash with the hash of the file contents read when the hash is first
computed; once the hash is memoized, later content changes (a different
filesystem) no longer affect it. -/
theorem fixedFile_hash_firstUse (g : Graph) (fs fs2 : Fs) (fuel i : Nat)
    (st : St) (l : String) (h : HVal)
    (hk : g.kind i = NodeKind.fixedFileArt l) :
    (st i = none → 2 ≤ fuel →
      (secHashF g fs fuel i st).1 =
        secHashObject (HVal.pair (HVal.nat (g.classHash i))
          (secHashFile (fs l)))) ∧
    (st i = some h → 1 ≤ fuel → secHashF g fs2 fuel i st = (h, st)) := by
  constructor
  · intro hst hfuel
    obtain ⟨f, rfl⟩ : ∃ f, fuel = f + 2 := ⟨fuel - 2, by omega⟩
    simp [secHashF, computeSecHashF, hst, hk]
  · intro hst hfuel
    exact secHashF_cached g fs2 hfuel hst

/-- Witness for the amended C8: fresh hash uses the current contents; a
memoized hash survives a content change. -/
theorem fixedFile_hash_firstUse_witness :
    ((St.empty 0 = none) ∧
      (secHashF gFile (fun _ => "B") 2 0 St.empty).1 =
        secHashObject (HVal.pair (HVal.nat (gFile.classHash 0))
          (secHashFile ((fun _ => "B") "f")))) ∧
    secHashF gFile (fun _ => "A") 1 0 (fun _ => some (HVal.nat 9)) =
      (HVal.nat 9, fun _ => some (HVal.nat 9)) :=
  ⟨⟨rfl, (fixedFile_hash_firstUse gFile (fun _ => "B") (fun _ => "A") 2 0
      St.empty "f" (HVal.nat 9) rfl).1 rfl (by decide)⟩,
    (fixedFile_hash_firstUse gFile (fun _ => "B") (fun _ => "A") 1 0
      (fun _ => some (HVal.nat 9)) "f" (HVal.nat 9) rfl).2 rfl (by decide)⟩

/-- C2: checkAllSecHash of a node raises exactly when some node reachable
from it along the parents relation (itself included) holds a cached identity
hash differing from a fresh recomputation: on any coherent (in particular
freshly built) graph state it never raises; on a fully memoized state the
raise condition is exactly the existence of a reachable node whose cache
disagrees with recombination; and replacing one reachable node's cached hash
with any wrong value before the check makes it raise. -/
theorem checkAllSecHash_raises_iff_drift (g : Graph) (fs : Fs) (s fuel : Nat)
    (hwf : g.WF) (hs : s < g.n) (hfuel : 2 * g.n + 2 ≤ fuel) :
    (∀ st : St, Coh g fs st →
      ∃ st', checkAllSecHashF g fs fuel s st = Except.ok st') ∧
    (∀ v : Nat → HVal,
      ((∃ e, checkAllSecHashF g fs fuel s (fun j => some (v j)) =
          Except.error e) ↔
        ∃ k, g.Reach s k ∧ v k ≠ computeStored g fs v k)) ∧
    (∀ k h2, g.Reach s k → h2 ≠ trueHash g fs k →
      ∃ e, checkAllSecHashF g fs fuel s
        (fun j => if j = k then some h2 else some (trueHash g fs j)) =
          Except.error e) := by
  have hinit : ∀ x ∈ [s], x < g.n := by
    intro x hx
    rw [List.mem_singleton.mp hx]
    exact hs
  have hspec := ancestors_spec g hwf.closed [s] hinit
  have hmem : ∀ k, k ∈ ancestors g [s] ↔ g.Reach s k := by
    intro k
    rw [hspec.2 k]
    simp
  have hlt : ∀ i ∈ ancestors g [s], i < g.n := by
    intro i hi
    exact Graph.Reach.lt_n hwf hs ((hmem i).mp hi)
  have hpart1 : ∀ st : St, Coh g fs st →
      ∃ st', checkAllSecHashF g fs fuel s st = Except.ok st' := by
    intro st hcoh
    obtain ⟨st', hok, _⟩ := @checkNodesF_coh g fs hwf fuel (by omega)
      (ancestors g [s]) st hlt hcoh
    exact ⟨st', hok⟩
  have hpart2 : ∀ v : Nat → HVal,
      ((∃ e, checkAllSecHashF g fs fuel s (fun j => some (v j)) =
          Except.error e) ↔
        ∃ k, g.Reach s k ∧ v k ≠ computeStored g fs v k) := by
    intro v
    have hiff := (@checkNodesF_stored g fs fuel (fun j => some (v j)) v
      (fun j => rfl) (by omega) (ancestors g [s])).1
    unfold checkAllSecHashF
    rw [hiff]
    constructor
    · rintro ⟨i, hi, hne⟩
      exact ⟨i, (hmem i).mp hi, hne⟩
    · rintro ⟨k, hr, hne⟩
      exact ⟨k, (hmem k).mpr hr, hne⟩
  refine ⟨hpart1, hpart2, ?_⟩
  intro k h2 hreach hne
  have hkn : k < g.n := Graph.Reach.lt_n hwf hs hreach
  have hck : (fun j => if j = k then h2 else trueHash g fs j) k ≠
      computeStored g fs (fun j => if j = k then h2 else trueHash g fs j) k := by
    have hcs : computeStored g fs (fun j => if j = k then h2 else trueHash g fs j) k =
        computeStored g fs (trueHash g fs) k := by
      apply computeStored_congr
      intro j hj
      have hjk : j ≠ k := Nat.ne_of_lt (hwf k hkn j hj)
      simp [hjk]
    rw [hcs, ← trueHash_eq_computeStored g fs hwf hkn]
    simpa using hne
  obtain ⟨e, he⟩ := (hpart2 (fun j => if j = k then h2 else trueHash g fs j)).mpr
    ⟨k, hreach, hck⟩
  have heqfun : (fun j => some ((fun j => if j = k then h2 else trueHash g fs j) j)) =
      (fun j => if j = k then some h2 else some (trueHash g fs j)) := by
    funext j
    by_cases hj : j = k <;> simp [hj]
  rw [heqfun] at he
  exact ⟨e, he⟩

/-- Witness for C2 on the chain graph from its output artifact. -/
theorem checkAllSecHash_raises_iff_drift_witness :
    gChain.WF ∧
    ((∀ st : St, Coh gChain fsEmpty st →
      ∃ st', checkAllSecHashF gChain fsEmpty 8 2 st = Except.ok st') ∧
    (∀ v : Nat → HVal,
      ((∃ e, checkAllSecHashF gChain fsEmpty 8 2 (fun j => some (v j)) =
          Except.error e) ↔
        ∃ k, gChain.Reach 2 k ∧ v k ≠ computeStored gChain fsEmpty v k)) ∧
    (∀ k h2, gChain.Reach 2 k → h2 ≠ trueHash gChain fsEmpty k →
      ∃ e, checkAllSecHashF gChain fsEmpty 8 2
        (fun j => if j = k then some h2 else some (trueHash gChain fsEmpty j)) =
          Except.error e)) := by
  have hwf : gChain.WF := by
    unfold Graph.WF gChain Graph.parentsOf NodeKind.parentsOf
    decide
  exact ⟨hwf, checkAllSecHash_raises_iff_drift gChain fsEmpty 2 8 hwf
    (by decide) (by decide)⟩
